import Mathlib

/-!
Verification of the lazyflow `vigraOperators.py` operators: the multi-scale
feature cascade (`OpPixelFeaturesPresmoothed`), the base windowed filter
(`OpBaseVigraFilter`) and the chunked HDF5 writer (`OpH5WriterBigDataset`).
Python float arithmetic is modelled with exact real/rational arithmetic,
machine integers with `Nat`.
-/

namespace Lazyflow

/-! ## Feature selection matrix and presmoothing columns
(`OpPixelFeaturesPresmoothed.execute`, the loop over `j in range(dimCol)`). -/

/-- `self.matrix[i, j]`: cell of the feature selection matrix (missing
entries read as disabled). -/
def matrixCell (matrix : List (List Bool)) (i j : Nat) : Bool :=
  (matrix.getD i []).getD j false

/-- The `hasScale` test of `execute`: column `j` has at least one enabled
cell (`for i in range(dimRow): if self.matrix[i,j]: hasScale = True`). -/
def columnHasScale (matrix : List (List Bool)) (j : Nat) : Bool :=
  (List.range matrix.length).any (fun i => matrixCell matrix i j)

/-- Columns for which `execute` builds a Shared Presmoothed Array
(`sourceArraysForSigmas[j]`): the loop over `j in range(dimCol)` skips
(`continue`) exactly the columns with no enabled cell. -/
def presmoothedColumns (matrix : List (List Bool)) (dimCol : Nat) : List Nat :=
  (List.range dimCol).filter (fun j => columnHasScale matrix j)

/-- Number of Gaussian-presmoothing computations performed by one `execute`
call on the stacked Output: one per non-skipped column. -/
def presmoothCount (matrix : List (List Bool)) (dimCol : Nat) : Nat :=
  (presmoothedColumns matrix dimCol).length

/-- The distinct scale values referenced by at least one enabled cell
(`dimCol = len(self.scales)`). -/
def referencedScaleValues {α : Type} [DecidableEq α] [Inhabited α] (scales : List α)
    (matrix : List (List Bool)) : List α :=
  ((presmoothedColumns matrix scales.length).map (fun j => scales.getD j default)).dedup

/-- Number of distinct scale values referenced by at least one enabled cell. -/
def distinctReferencedScaleCount {α : Type} [DecidableEq α] [Inhabited α]
    (scales : List α) (matrix : List (List Bool)) : Nat :=
  (referencedScaleValues scales matrix).length

/-! ## Presmoothing scale arithmetic
(`setupOutputs` lines 162-170 and `execute` lines 429-434; floats as reals). -/

/-- `setupOutputs`: `destSigma = 1.0; newScales.append(destSigma if
scales[j] > destSigma else scales[j])` — the scale each per-feature filter
operator is configured with. -/
noncomputable def newScale (s : ℝ) : ℝ :=
  if 1 < s then 1 else s

/-- `execute`: `tempSigma = sqrt(scales[j]**2 - destSigma**2)` when
`scales[j] > destSigma (= 1.0)`, else `tempSigma = scales[j]` — the sigma of
the shared presmoothing pass. -/
noncomputable def presmoothTempSigma (s : ℝ) : ℝ :=
  if 1 < s then Real.sqrt (s ^ 2 - 1 ^ 2) else s

/-- `execute`: the `destSigma` value left after the branch (1.0 if
`scales[j] > 1.0`, otherwise reassigned to 0.0). -/
noncomputable def presmoothDestSigma (s : ℝ) : ℝ :=
  if 1 < s then 1 else 0

/-- The spec's formulation: `destSigma = min(scale, 1.0)`. -/
noncomputable def specDestSigma (s : ℝ) : ℝ := min s 1

/-- The spec's formulation: `residual = sqrt(scale² − destSigma²)` if
`scale > destSigma` else `residual = scale`. -/
noncomputable def specResidual (s : ℝ) : ℝ :=
  if specDestSigma s < s then Real.sqrt (s ^ 2 - specDestSigma s ^ 2) else s

/-- The spec's formulation: the final destination sigma (`destSigma` when
`scale > destSigma`, else 0). -/
noncomputable def specFinalDestSigma (s : ℝ) : ℝ :=
  if specDestSigma s < s then specDestSigma s else 0

/-! ## Dirty propagation on the primary Input
(`OpPixelFeaturesPresmoothed.propagateDirty`, lines 282-304). -/

/-- The list of dirty regions `propagateDirty` marks on Output for a dirty
notification `[roiStart, roiStop)` on Input.  Full-channel notifications take
the contiguous branch (`dirtyKey[channelAxis] = slice(None)` resolved against
the Output shape); partial-channel notifications loop over
`numFeatures = outputShape[c] / numChannels` blocks with
`startChannel = numChannels*featureIndex + roi.start[c]` and
`stopChannel = startChannel + roi.stop[c]`. -/
def propagateDirtyInput (channelAxis : Nat) (inputShape outputShape : List Nat)
    (roiStart roiStop : List Nat) : List (List Nat × List Nat) :=
  let numChannels := inputShape.getD channelAxis 0
  let dirtyChannels := roiStop.getD channelAxis 0 - roiStart.getD channelAxis 0
  if dirtyChannels = numChannels then
    [(roiStart.set channelAxis 0,
      roiStop.set channelAxis (outputShape.getD channelAxis 0))]
  else
    let numFeatures := outputShape.getD channelAxis 0 / numChannels
    (List.range numFeatures).map (fun featureIndex =>
      let startChannel := numChannels * featureIndex + roiStart.getD channelAxis 0
      let stopChannel := startChannel + roiStop.getD channelAxis 0
      (roiStart.set channelAxis startChannel, roiStop.set channelAxis stopChannel))

/-- The dirty regions claim C2 describes: one region per feature block of the
Channel Offset Table, the notified channel range translated by that block's
start channel, all other axes unchanged. -/
def claimDirtyRegions (channelAxis : Nat) (offsets : List (Nat × Nat))
    (roiStart roiStop : List Nat) : List (List Nat × List Nat) :=
  offsets.map (fun block =>
    (roiStart.set channelAxis (block.1 + roiStart.getD channelAxis 0),
     roiStop.set channelAxis (block.1 + roiStop.getD channelAxis 0)))

/-! ## Per-feature slot delegation (`execute`, lines 314-330). -/

/-- The two slots `OpPixelFeaturesPresmoothed.execute` accepts. -/
inductive PFPSlot where
  | features (index : Nat)
  | output
deriving DecidableEq

/-- Recursion measure: a `Features` request recurses once into `Output`. -/
def slotDepth : PFPSlot → Nat
  | PFPSlot.features _ => 1
  | PFPSlot.output => 0

/-- Channel translation of a `Features[index]` ROI (lines 323-325):
`slice(featureOutputChannels[index][0] + key[c].start,
featureOutputChannels[index][0] + key[c].stop)`. -/
def translateFeatureRoi (offsets : List (Nat × Nat)) (index channelIndex : Nat)
    (roiStart roiStop : List Nat) : List Nat × List Nat :=
  let base := (offsets.getD index (0, 0)).1
  (roiStart.set channelIndex (base + roiStart.getD channelIndex 0),
   roiStop.set channelIndex (base + roiStop.getD channelIndex 0))

/-- The slot dispatch of `execute`: a `Features[index]` request builds the
translated ROI and recursively invokes `execute` on `Output`
(`return self.execute(self.Output, (), rroi, result)`); `outputExec`
abstracts the stacked-output compute path (lines 330-523). -/
def executeDispatch {α : Type} (outputExec : List Nat → List Nat → α)
    (offsets : List (Nat × Nat)) (channelIndex : Nat) :
    PFPSlot → List Nat → List Nat → α
  | PFPSlot.features index, roiStart, roiStop =>
      let troi := translateFeatureRoi offsets index channelIndex roiStart roiStop
      executeDispatch outputExec offsets channelIndex PFPSlot.output troi.1 troi.2
  | PFPSlot.output, roiStart, roiStop => outputExec roiStart roiStop
termination_by slot _ _ => slotDepth slot
decreasing_by simp [slotDepth]

/-! ## The Channel Offset Table (`setupOutputs`, lines 227-248). -/

/-- Row-major traversal of the enabled cells: `for i in range(dimRow):
for j in range(dimCol): if self.matrix[i,j]`. -/
def enabledCells (matrix : List (List Bool)) (dimRow dimCol : Nat) : List (Nat × Nat) :=
  (List.range dimRow).flatMap (fun i =>
    ((List.range dimCol).filter (fun j => matrixCell matrix i j)).map (fun j => (i, j)))

/-- The Channel Offset Table (`self.featureOutputChannels`), built by
`featureOutputChannels.append((channelCount, channelCount + featureChannels));
channelCount += featureChannels` over the enabled cells; `fc i j` is the
channel extent of the feature image of cell `(i, j)`. -/
def featureOutputChannelsFrom (fc : Nat → Nat → Nat) (channelCount : Nat) :
    List (Nat × Nat) → List (Nat × Nat)
  | [] => []
  | cell :: rest =>
      (channelCount, channelCount + fc cell.1 cell.2) ::
        featureOutputChannelsFrom fc (channelCount + fc cell.1 cell.2) rest

/-- The final `channelCount` after the double loop. -/
def totalChannelCount (fc : Nat → Nat → Nat) : List (Nat × Nat) → Nat
  | [] => 0
  | cell :: rest => fc cell.1 cell.2 + totalChannelCount fc rest

/-- Modelled from the spec: `OpMultiArrayStacker` (file `generic.py`, not under
src) stacks the enabled feature images along the channel axis, so the channel
extent of the published stacked Output shape is the sum of the per-feature
channel extents. -/
def stackedChannelExtent (fc : Nat → Nat → Nat) (cells : List (Nat × Nat)) : Nat :=
  (cells.map (fun cell => fc cell.1 cell.2)).sum

/-! ## OpBaseVigraFilter.execute write path (lines 656-711). -/

/-- How one per-time-step filter result reaches the destination buffer. -/
inductive WriteMode where
  | direct
  | tempCopy
deriving DecidableEq

/-- The three assignments that determine the write path for one channel block:
`supportsOut = self.supportsOut` (line 656), the partial-channel-range
restriction `if destEnd-destBegin != channelsPerChannel: supportsOut = False`
(lines 657-658), then the unconditional `supportsOut = False  # disable for
now due to vigra crashes!` (line 660). -/
def effectiveSupportsOut (classSupportsOut : Bool)
    (destEnd destBegin channelsPerChannel : Nat) : Bool :=
  let s := classSupportsOut
  let s := if destEnd - destBegin ≠ channelsPerChannel then false else s
  let s := false
  s

/-- The branch taken per time step (line 675 `if supportsOut:` writes the
filter result directly into `vres`; the `else` branch computes into `temp`
and copies `vres[:] = temp[twriteKey]`, lines 691-711). -/
def timeStepMode (supportsOut : Bool) : WriteMode :=
  if supportsOut then WriteMode.direct else WriteMode.tempCopy

/-- Write modes produced across one `execute` call: the channel loop supplies
each iteration's `(destEnd, destBegin)` pair, the time loop runs `timeSteps`
iterations per channel block. -/
def executeWriteModes (classSupportsOut : Bool) (channelsPerChannel : Nat)
    (channelBlocks : List (Nat × Nat)) (timeSteps : Nat) : List WriteMode :=
  channelBlocks.flatMap (fun blk =>
    (List.range timeSteps).map (fun _ =>
      timeStepMode (effectiveSupportsOut classSupportsOut blk.1 blk.2 channelsPerChannel)))

/-! ## OpH5WriterBigDataset.execute (lines 1055-1101). -/

/-- Observable events of one writer `execute` call. -/
inductive WriterEvent (α : Type) where
  | progress (value : Nat)
  | writeBlock (s : α)
deriving DecidableEq

/-- The start-up loop (lines 1068-1072): `for i in range(min(10,
len(slicings))): s = slicings.pop(); activeSlicings.append(s); ...` —
`slicings.pop()` removes the LAST element. -/
def popAppend {α : Type} : Nat → List α × List α → List α × List α
  | 0, st => st
  | n + 1, (slicings, active) =>
      match slicings.getLast? with
      | none => (slicings, active)
      | some s => popAppend n (slicings.dropLast, active ++ [s])

/-- State after the start-up loop: remaining slicings and the active queue. -/
def writerInit {α : Type} (slicings : List α) : List α × List α :=
  popAppend (min 10 slicings.length) (slicings, [])

/-- The while loop (lines 1076-1093): pop the OLDEST active request
(`popleft`), wait, write its block, issue one new request if slicings
remain (again popping the last slicing), signal `100*counter/numSlicings`
(Python 2 integer division), then `counter += 1`.  `fuel` bounds the
iterations; `writerExecute` supplies exactly enough. -/
def writerLoop {α : Type} : Nat → List α → List α → Nat → Nat → List (WriterEvent α)
  | 0, _, _, _, _ => []
  | _ + 1, _, [], _, _ => []
  | fuel + 1, slicings, s :: rest, counter, numSlicings =>
      let active' := match slicings.getLast? with
        | some s2 => rest ++ [s2]
        | none => rest
      WriterEvent.writeBlock s ::
        WriterEvent.progress (100 * counter / numSlicings) ::
          writerLoop fuel slicings.dropLast active' (counter + 1) numSlicings

/-- The full event stream of one writer `execute` call:
`progressSignal(0)` first (line 1057), the block loop, then the
unconditional `progressSignal(100)` (line 1101). -/
def writerExecute {α : Type} (slicings : List α) : List (WriterEvent α) :=
  let numSlicings := slicings.length
  let st := writerInit slicings
  WriterEvent.progress 0 ::
    (writerLoop (st.1.length + st.2.length) st.1 st.2 0 numSlicings ++
      [WriterEvent.progress 100])

/-- Just the progress values, in signalling order. -/
def progressValues {α : Type} : List (WriterEvent α) → List Nat
  | [] => []
  | WriterEvent.progress v :: rest => v :: progressValues rest
  | WriterEvent.writeBlock _ :: rest => progressValues rest

/-- The progress sequence claim C7 predicts: 0 at start, `100 *
completedBlocks / totalBlocks` after each block write with `completedBlocks`
counting the just-written block, and 100 at the end. -/
def claimedProgressValues (totalBlocks : Nat) : List Nat :=
  0 :: ((List.range totalBlocks).map (fun k => 100 * (k + 1) / totalBlocks) ++ [100])

/-- Outstanding-request counts during the start-up loop: the length of
`activeRequests` right after each request is issued. -/
def writerInitActiveCounts {α : Type} : Nat → List α × List α → List Nat
  | 0, _ => []
  | n + 1, (slicings, active) =>
      match slicings.getLast? with
      | none => []
      | some s => (active.length + 1) :: writerInitActiveCounts n (slicings.dropLast, active ++ [s])

/-- Outstanding-request counts at the head of each while-loop iteration: the
length of `activeRequests` (the request being waited on has just been popped
from it, so this is exactly the number of issued-but-not-yet-waited-on
requests at the wait). -/
def writerActiveCounts {α : Type} : Nat → List α → List α → List Nat
  | 0, _, _ => []
  | _ + 1, _, [] => []
  | fuel + 1, slicings, s :: rest =>
      let active' := match slicings.getLast? with
        | some s2 => rest ++ [s2]
        | none => rest
      (rest.length + 1) :: writerActiveCounts fuel slicings.dropLast active'

/-- All outstanding-request counts over one writer `execute` call. -/
def writerOutstandingCounts {α : Type} (slicings : List α) : List Nat :=
  let st := writerInit slicings
  writerInitActiveCounts (min 10 slicings.length) (slicings, []) ++
    writerActiveCounts (st.1.length + st.2.length) st.1 st.2

/-! ## OpH5WriterBigDataset.setupOutputs chunk shape (lines 1019-1050). -/

/-- The five axis keys `chunkDims` knows about. -/
inductive AxisKey where
  | t
  | x
  | y
  | z
  | c
deriving DecidableEq

/-- Spatial axis keys. -/
def isSpatial : AxisKey → Bool
  | AxisKey.x => true
  | AxisKey.y => true
  | AxisKey.z => true
  | _ => false

/-- Bounded iteration for the integer cube root. -/
def natCbrtAux (n : Nat) : Nat → Nat → Nat
  | 0, k => k
  | fuel + 1, k => if (k + 1) ^ 3 ≤ n then natCbrtAux n fuel (k + 1) else k

/-- Integer cube root: the greatest `k` with `k³ ≤ n` — the value of
`int(math.pow(n, 1/3.0))` under exact real arithmetic. -/
def natCbrt (n : Nat) : Nat := natCbrtAux n n 0

/-- `numChannels = dataShape[axistags.index('c')]` (line 1019): the extent of
the first channel axis. -/
def writerNumChannels (axes : List (AxisKey × Nat)) : Nat :=
  match axes.find? (fun a => a.1 == AxisKey.c) with
  | some a => a.2
  | none => 0

/-- `cubeDim = int(math.pow(300000 / (numChannels * dtypeBytes), 1/3.0))`
(lines 1023-1024; Python 2 `/` on ints is integer division). -/
def writerCubeDim (numChannels dtypeBytes : Nat) : Nat :=
  natCbrt (300000 / (numChannels * dtypeBytes))

/-- The `chunkDims` dictionary (lines 1026-1031). -/
def chunkDim (cubeDim numChannels : Nat) : AxisKey → Nat
  | AxisKey.t => 1
  | AxisKey.x => cubeDim
  | AxisKey.y => cubeDim
  | AxisKey.z => cubeDim
  | AxisKey.c => numChannels

/-- The chosen chunk shape (lines 1036-1040): per axis,
`min(chunkDims[axisKey], dataShape[i])`. -/
def writerChunkShape (axes : List (AxisKey × Nat)) (dtypeBytes : Nat) : List Nat :=
  let numChannels := writerNumChannels axes
  let cubeDim := writerCubeDim numChannels dtypeBytes
  axes.map (fun a => min (chunkDim cubeDim numChannels a.1) a.2)

/-! ## Theorems -/

/-- C1 counterexample: with scale list `[2, 2]` and both columns of the single
row enabled, one `execute` call performs two presmoothing computations while
only one distinct scale value is referenced by enabled cells, so the number of
presmoothing computations differs from the number of distinct referenced scale
values. -/
theorem presmooth_count_ne_distinct_scale_count :
    presmoothCount [[true, true]] ([2, 2] : List ℚ).length = 2 ∧
    distinctReferencedScaleCount ([2, 2] : List ℚ) [[true, true]] = 1 ∧
    presmoothCount [[true, true]] ([2, 2] : List ℚ).length ≠
      distinctReferencedScaleCount ([2, 2] : List ℚ) [[true, true]] := by
  decide

/-- C1 (amended): during one stacked-output `execute` call the Shared
Presmoothed Array is built exactly once per scale COLUMN with at least one
enabled cell — the presmoothed columns are exactly those columns, each
occurring once — and when the configured scale values are pairwise distinct
this count equals the number of distinct scale values referenced by at least
one enabled cell. -/
theorem presmooth_once_per_enabled_column {α : Type} [DecidableEq α] [Inhabited α]
    (scales : List α) (matrix : List (List Bool)) (h : scales.Nodup) :
    (presmoothedColumns matrix scales.length).Nodup ∧
    (∀ j, j ∈ presmoothedColumns matrix scales.length ↔
      j < scales.length ∧ columnHasScale matrix j = true) ∧
    presmoothCount matrix scales.length = distinctReferencedScaleCount scales matrix := by
  have hnd : (presmoothedColumns matrix scales.length).Nodup :=
    (List.nodup_range _).filter _
  refine ⟨hnd, ?_, ?_⟩
  · intro j
    simp [presmoothedColumns, List.mem_filter, List.mem_range]
  · have hmem : ∀ j ∈ presmoothedColumns matrix scales.length, j < scales.length := by
      intro j hj
      exact List.mem_range.mp (List.mem_of_mem_filter hj)
    have hmapnd : ((presmoothedColumns matrix scales.length).map
        (fun j => scales.getD j default)).Nodup := by
      refine List.Nodup.map_on ?_ hnd
      intro x hx y hy hxy
      rw [List.getD_eq_getElem _ _ (hmem x hx), List.getD_eq_getElem _ _ (hmem y hy)] at hxy
      exact h.getElem_inj_iff.mp hxy
    unfold presmoothCount distinctReferencedScaleCount referencedScaleValues
    rw [List.dedup_eq_self.mpr hmapnd, List.length_map]

/-- C1 witness: a concrete duplicate-free scale list where the presmoothing
count equals the distinct referenced scale count. -/
theorem presmooth_once_per_enabled_column_witness :
    presmoothCount [[true, true]] ([1, 3] : List ℚ).length =
      distinctReferencedScaleCount ([1, 3] : List ℚ) [[true, true]] :=
  (presmooth_once_per_enabled_column ([1, 3] : List ℚ) [[true, true]] (by decide)).2.2

/-- C3: for every configured scale `s` the cascade uses exactly the spec's
reduced presmoothing target — `destSigma = min(s, 1)` with
`residual = sqrt(s² − destSigma²)` when `s > destSigma` and `residual = s`
with `destSigma = 0` otherwise; concretely, for `s > 1` the shared
presmoothing pass uses `sqrt(s² − 1)` and the per-feature filter operators
are configured with scale 1, otherwise the pass uses `s` and the filter
operators are configured with scale `s`. -/
theorem scale_reduction_matches_spec (s : ℝ) :
    presmoothTempSigma s = specResidual s ∧
    presmoothDestSigma s = specFinalDestSigma s ∧
    (1 < s → presmoothTempSigma s = Real.sqrt (s ^ 2 - 1) ∧ newScale s = 1) ∧
    (s ≤ 1 → presmoothTempSigma s = s ∧ newScale s = s) := by
  rcases le_or_lt s 1 with h | h
  · have hmin : specDestSigma s = s := min_eq_left h
    have hns : ¬ (1 < s) := not_lt.mpr h
    refine ⟨?_, ?_, fun h' => absurd h' hns, fun _ => ?_⟩
    · simp [presmoothTempSigma, specResidual, hmin, hns]
    · simp [presmoothDestSigma, specFinalDestSigma, hmin, hns]
    · simp [presmoothTempSigma, newScale, hns]
  · have hmin : specDestSigma s = 1 := min_eq_right h.le
    refine ⟨?_, ?_, fun _ => ?_, fun h' => absurd h (not_lt.mpr h')⟩
    · simp [presmoothTempSigma, specResidual, hmin, h]
    · simp [presmoothDestSigma, specFinalDestSigma, hmin, h]
    · constructor
      · rw [presmoothTempSigma, if_pos h]
        norm_num
      · simp [newScale, h]

/-- C3 witness: the reduction at the concrete scale 2. -/
theorem scale_reduction_witness :
    presmoothTempSigma 2 = Real.sqrt (2 ^ 2 - 1) ∧ newScale 2 = 1 :=
  (scale_reduction_matches_spec 2).2.2.1 (by norm_num)

/-- C4: a request on `Features[index]` returns exactly the stacked-Output
request for the ROI whose channel start and stop are both translated by
`featureOutputChannels[index][0]`, all other axes unchanged. -/
theorem feature_slot_delegates_to_output {α : Type}
    (outputExec : List Nat → List Nat → α) (offsets : List (Nat × Nat))
    (channelIndex index : Nat) (roiStart roiStop : List Nat) :
    executeDispatch outputExec offsets channelIndex (PFPSlot.features index) roiStart roiStop =
      executeDispatch outputExec offsets channelIndex PFPSlot.output
        (roiStart.set channelIndex ((offsets.getD index (0, 0)).1 + roiStart.getD channelIndex 0))
        (roiStop.set channelIndex ((offsets.getD index (0, 0)).1 + roiStop.getD channelIndex 0)) ∧
    (∀ i, i ≠ channelIndex →
      (translateFeatureRoi offsets index channelIndex roiStart roiStop).1.getD i 0 =
        roiStart.getD i 0 ∧
      (translateFeatureRoi offsets index channelIndex roiStart roiStop).2.getD i 0 =
        roiStop.getD i 0) := by
  constructor
  · simp [executeDispatch, translateFeatureRoi]
  · intro i hi
    constructor <;>
      simp [translateFeatureRoi, List.getD_eq_getElem?_getD,
        List.getElem?_set_ne (Ne.symm hi)]

/-- C4 witness: delegation at a concrete offset table and ROI. -/
theorem feature_slot_delegates_witness :
    executeDispatch (fun s t => (s, t)) [(0, 2), (2, 4)] 1 (PFPSlot.features 1) [3, 0] [7, 2] =
      executeDispatch (fun s t => (s, t)) [(0, 2), (2, 4)] 1 PFPSlot.output [3, 2] [7, 4] ∧
    (translateFeatureRoi [(0, 2), (2, 4)] 1 1 [3, 0] [7, 2]).1.getD 0 0 = 3 := by
  have h := feature_slot_delegates_to_output (fun s t : List Nat => (s, t))
    [(0, 2), (2, 4)] 1 1 [3, 0] [7, 2]
  exact ⟨h.1, ((h.2 0 (by decide)).1).trans (by decide)⟩

/-- C9: a dirty notification on Input covering the full channel range yields
exactly one contiguous dirty region on Output, spanning channel range
`[0, outputShape[c])` and keeping the notified start/stop on every other
axis. -/
theorem full_channel_dirty_contiguous (channelAxis : Nat)
    (inputShape outputShape roiStart roiStop : List Nat)
    (hstart : roiStart.getD channelAxis 0 = 0)
    (hstop : roiStop.getD channelAxis 0 = inputShape.getD channelAxis 0)
    (hlenStart : channelAxis < roiStart.length)
    (hlenStop : channelAxis < roiStop.length) :
    propagateDirtyInput channelAxis inputShape outputShape roiStart roiStop =
      [(roiStart.set channelAxis 0,
        roiStop.set channelAxis (outputShape.getD channelAxis 0))] ∧
    (propagateDirtyInput channelAxis inputShape outputShape roiStart roiStop).length = 1 ∧
    (roiStart.set channelAxis 0).getD channelAxis 0 = 0 ∧
    (roiStop.set channelAxis (outputShape.getD channelAxis 0)).getD channelAxis 0 =
      outputShape.getD channelAxis 0 ∧
    (∀ i, i ≠ channelAxis →
      (roiStart.set channelAxis 0).getD i 0 = roiStart.getD i 0 ∧
      (roiStop.set channelAxis (outputShape.getD channelAxis 0)).getD i 0 =
        roiStop.getD i 0) := by
  have hbranch : propagateDirtyInput channelAxis inputShape outputShape roiStart roiStop =
      [(roiStart.set channelAxis 0,
        roiStop.set channelAxis (outputShape.getD channelAxis 0))] := by
    unfold propagateDirtyInput
    rw [hstart, hstop, Nat.sub_zero, if_pos rfl]
  refine ⟨hbranch, by rw [hbranch]; rfl, ?_, ?_, ?_⟩
  · simp [List.getD_eq_getElem?_getD, List.getElem?_set_self hlenStart]
  · simp [List.getD_eq_getElem?_getD, List.getElem?_set_self hlenStop]
  · intro i hi
    constructor <;>
      simp [List.getD_eq_getElem?_getD, List.getElem?_set_ne (Ne.symm hi)]

/-- C9 witness: a full-channel dirty notification on a 2-channel input with a
4-channel output. -/
theorem full_channel_dirty_witness :
    propagateDirtyInput 1 [10, 2] [10, 4] [3, 0] [7, 2] = [([3, 0], [7, 4])] :=
  (full_channel_dirty_contiguous 1 [10, 2] [10, 4] [3, 0] [7, 2]
    (by decide) (by decide) (by decide) (by decide)).1

/-- C2: evaluation of `propagateDirty` at the failing input.  Input shape
`(x=10, c=2)`, one enabled single-channel feature, output shape `(10, 2)`,
Channel Offset Table `[(0, 2)]`, dirty ROI `[3,1] .. [7,2)` (channel range
`[1,2)`, a strict subset).  The code marks channel range `[1, 3)` — the
range's stop is `start + roi.stop[c]` instead of the claimed
`blockStart + roi.stop[c]` — which both differs from the claimed translated
sub-range `[1, 2)` and exceeds the output's channel extent 2. -/
theorem partial_channel_dirty_bug :
    propagateDirtyInput 1 [10, 2] [10, 2] [3, 1] [7, 2] = [([3, 1], [7, 3])] ∧
    claimDirtyRegions 1 [(0, 2)] [3, 1] [7, 2] = [([3, 1], [7, 2])] ∧
    propagateDirtyInput 1 [10, 2] [10, 2] [3, 1] [7, 2] ≠
      claimDirtyRegions 1 [(0, 2)] [3, 1] [7, 2] ∧
    ((propagateDirtyInput 1 [10, 2] [10, 2] [3, 1] [7, 2]).getD 0 ([], [])).2.getD 1 0 >
      ([10, 2] : List Nat).getD 1 0 := by
  decide

/-- C10: the `supportsOut = False` reassignment (line 660) makes the
direct-write branch dead: for every filter class — `supportsOut` flag true or
not — every channel-block and time-step iteration of
`OpBaseVigraFilter.execute` computes into a temporary and copies the
requested sub-window into the destination. -/
theorem direct_write_branch_dead (classSupportsOut : Bool) (channelsPerChannel : Nat)
    (channelBlocks : List (Nat × Nat)) (timeSteps : Nat) (destEnd destBegin : Nat) :
    effectiveSupportsOut classSupportsOut destEnd destBegin channelsPerChannel = false ∧
    (executeWriteModes classSupportsOut channelsPerChannel channelBlocks timeSteps).all
      (fun m => m == WriteMode.tempCopy) = true := by
  refine ⟨rfl, ?_⟩
  simp only [executeWriteModes, List.all_eq_true, List.mem_flatMap, List.mem_map]
  rintro m ⟨blk, -, k, -, rfl⟩
  rfl

/-! ### Channel Offset Table lemmas (C5) -/

theorem featureOutputChannelsFrom_length (fc : Nat → Nat → Nat) :
    ∀ (cells : List (Nat × Nat)) (start : Nat),
      (featureOutputChannelsFrom fc start cells).length = cells.length := by
  intro cells
  induction cells with
  | nil => intro start; rfl
  | cons cell rest ih =>
    intro start
    simp [featureOutputChannelsFrom, ih]

theorem totalChannelCount_append (fc : Nat → Nat → Nat) :
    ∀ (l1 l2 : List (Nat × Nat)),
      totalChannelCount fc (l1 ++ l2) = totalChannelCount fc l1 + totalChannelCount fc l2 := by
  intro l1 l2
  induction l1 with
  | nil => simp [totalChannelCount]
  | cons cell rest ih => simp [totalChannelCount, ih]; omega

theorem mem_featureOutputChannelsFrom (fc : Nat → Nat → Nat) :
    ∀ (cells : List (Nat × Nat)) (start c : Nat),
      (∃ p ∈ featureOutputChannelsFrom fc start cells, p.1 ≤ c ∧ c < p.2) ↔
        start ≤ c ∧ c < start + totalChannelCount fc cells := by
  intro cells
  induction cells with
  | nil =>
    intro start c
    simp [featureOutputChannelsFrom, totalChannelCount]
  | cons cell rest ih =>
    intro start c
    simp only [featureOutputChannelsFrom, totalChannelCount, List.mem_cons]
    constructor
    · rintro ⟨p, hp | hp, h1, h2⟩
      · subst hp
        simp only at h1 h2
        omega
      · have := (ih (start + fc cell.1 cell.2) c).mp ⟨p, hp, h1, h2⟩
        omega
    · rintro ⟨h1, h2⟩
      by_cases hc : c < start + fc cell.1 cell.2
      · exact ⟨(start, start + fc cell.1 cell.2), Or.inl rfl, h1, hc⟩
      · obtain ⟨p, hp, h⟩ := (ih (start + fc cell.1 cell.2) c).mpr ⟨by omega, by omega⟩
        exact ⟨p, Or.inr hp, h⟩

theorem featureOutputChannelsFrom_getD (fc : Nat → Nat → Nat) :
    ∀ (cells : List (Nat × Nat)) (start k : Nat), k < cells.length →
      (featureOutputChannelsFrom fc start cells).getD k (0, 0) =
        (start + totalChannelCount fc (cells.take k),
         start + totalChannelCount fc (cells.take (k + 1))) := by
  intro cells
  induction cells with
  | nil => intro start k hk; simp at hk
  | cons cell rest ih =>
    intro start k hk
    match k with
    | 0 => simp [featureOutputChannelsFrom, totalChannelCount]
    | k + 1 =>
      have hk' : k < rest.length := by simpa using hk
      simp only [featureOutputChannelsFrom, List.getD_cons_succ, List.take_succ_cons,
        totalChannelCount, ih (start + fc cell.1 cell.2) k hk']
      rw [Prod.mk.injEq]
      constructor <;> omega

theorem totalChannelCount_take_le (fc : Nat → Nat → Nat) (cells : List (Nat × Nat))
    (a b : Nat) (hab : a ≤ b) :
    totalChannelCount fc (cells.take a) ≤ totalChannelCount fc (cells.take b) := by
  have : cells.take b = cells.take a ++ (cells.drop a).take (b - a) := by
    rw [← List.take_add]
    congr 1
    omega
  rw [this, totalChannelCount_append]
  omega

/-- C5: the Channel Offset Table built by `setupOutputs` partitions
`[0, totalChannels)` exactly: one half-open range per enabled cell in
row-major order, whose union is `[0, totalChannels)` (third conjunct) with
no overlaps (ranges are ordered and disjoint, fourth conjunct), where
`totalChannels` — the channel extent of the published stacked Output shape —
is the sum of the per-feature channel extents (second conjunct). -/
theorem channel_offsets_partition (matrix : List (List Bool)) (dimRow dimCol : Nat)
    (fc : Nat → Nat → Nat) :
    (featureOutputChannelsFrom fc 0 (enabledCells matrix dimRow dimCol)).length =
      (enabledCells matrix dimRow dimCol).length ∧
    totalChannelCount fc (enabledCells matrix dimRow dimCol) =
      stackedChannelExtent fc (enabledCells matrix dimRow dimCol) ∧
    (∀ c, c < totalChannelCount fc (enabledCells matrix dimRow dimCol) ↔
      ∃ p ∈ featureOutputChannelsFrom fc 0 (enabledCells matrix dimRow dimCol),
        p.1 ≤ c ∧ c < p.2) ∧
    (∀ k l, k < l → l < (enabledCells matrix dimRow dimCol).length →
      ((featureOutputChannelsFrom fc 0 (enabledCells matrix dimRow dimCol)).getD k (0, 0)).2 ≤
        ((featureOutputChannelsFrom fc 0 (enabledCells matrix dimRow dimCol)).getD l (0, 0)).1) := by
  refine ⟨featureOutputChannelsFrom_length fc _ 0, ?_, ?_, ?_⟩
  · induction enabledCells matrix dimRow dimCol with
    | nil => rfl
    | cons cell rest ih => simp [totalChannelCount, stackedChannelExtent] at ih ⊢; omega
  · intro c
    rw [mem_featureOutputChannelsFrom fc _ 0 c]
    omega
  · intro k l hkl hl
    rw [featureOutputChannelsFrom_getD fc _ 0 k (by omega),
      featureOutputChannelsFrom_getD fc _ 0 l hl]
    simp only [Nat.zero_add]
    exact totalChannelCount_take_le fc _ (k + 1) l hkl

/-- C5 witness: the partition at a concrete two-feature table. -/
theorem channel_offsets_partition_witness :
    ((featureOutputChannelsFrom (fun _ _ => 2) 0 (enabledCells [[true], [true]] 2 1)).getD
        0 (0, 0)).2 ≤
      ((featureOutputChannelsFrom (fun _ _ => 2) 0 (enabledCells [[true], [true]] 2 1)).getD
        1 (0, 0)).1 :=
  (channel_offsets_partition [[true], [true]] 2 1 (fun _ _ => 2)).2.2.2 0 1
    (by decide) (by decide)

/-! ### Writer lemmas (C6, C7) -/

theorem popAppend_lengths {α : Type} (n : Nat) :
    ∀ (slicings active : List α),
      (popAppend n (slicings, active)).1.length =
        slicings.length - min n slicings.length ∧
      (popAppend n (slicings, active)).2.length =
        active.length + min n slicings.length := by
  induction n with
  | zero => intro s a; simp [popAppend]
  | succ n ih =>
    intro s a
    rcases hs : s.getLast? with _ | x
    · have hnil : s = [] := by
        cases s with
        | nil => rfl
        | cons b bs => simp [List.getLast?_concat] at hs
      subst hnil
      simp [popAppend]
    · have hne : s ≠ [] := by rintro rfl; simp at hs
      have hpos : 0 < s.length := List.length_pos.mpr hne
      have h1 := (ih s.dropLast (a ++ [x])).1
      have h2 := (ih s.dropLast (a ++ [x])).2
      rw [List.length_dropLast] at h1 h2
      simp only [popAppend, hs, h1, h2, List.length_append, List.length_singleton]
      omega

theorem writerInitActiveCounts_le {α : Type} (n : Nat) :
    ∀ (slicings active : List α),
      ∀ x ∈ writerInitActiveCounts n (slicings, active), x ≤ active.length + n := by
  induction n with
  | zero => intro s a x hx; simp [writerInitActiveCounts] at hx
  | succ n ih =>
    intro s a x hx
    rcases hs : s.getLast? with _ | y
    · simp [writerInitActiveCounts, hs] at hx
    · simp only [writerInitActiveCounts, hs, List.mem_cons] at hx
      rcases hx with rfl | hx
      · omega
      · have := ih s.dropLast (a ++ [y]) x hx
        simp only [List.length_append, List.length_singleton] at this
        omega

theorem writerActiveCounts_le {α : Type} (fuel : Nat) :
    ∀ (slicings active : List α),
      ∀ x ∈ writerActiveCounts fuel slicings active, x ≤ active.length := by
  induction fuel with
  | zero => intro s a x hx; simp [writerActiveCounts] at hx
  | succ fuel ih =>
    intro s a x hx
    match a with
    | [] => simp [writerActiveCounts] at hx
    | b :: rest =>
      simp only [writerActiveCounts, List.mem_cons] at hx
      rcases hx with rfl | hx
      · simp
      · rcases hs : s.getLast? with _ | y <;> rw [hs] at hx
        · have := ih s.dropLast rest x hx
          simp only [List.length_cons]
          omega
        · have := ih s.dropLast (rest ++ [y]) x hx
          simp only [List.length_append, List.length_cons, List.length_nil] at this ⊢
          omega

/-- C6: throughout one `OpH5WriterBigDataset.execute` call — both while the
first `min(10, len(slicings))` requests are being issued and at every
iteration of the write loop — the number of outstanding upstream read
requests is at most 10. -/
theorem writer_outstanding_bounded {α : Type} (slicings : List α) :
    ∀ x ∈ writerOutstandingCounts slicings, x ≤ 10 := by
  intro x hx
  simp only [writerOutstandingCounts, List.mem_append] at hx
  rcases hx with h | h
  · have := writerInitActiveCounts_le (min 10 slicings.length) slicings [] x h
    simp only [List.length_nil, Nat.zero_add] at this
    omega
  · have hb := writerActiveCounts_le _ _ _ x h
    have hlen := (popAppend_lengths (min 10 slicings.length) slicings []).2
    simp only [writerInit] at hb
    simp only [List.length_nil, Nat.zero_add] at hlen
    rw [hlen] at hb
    omega

/-- C6 witness: with two blocks the outstanding counts are `[1, 2, 2, 1]`,
all at most 10. -/
theorem writer_outstanding_bounded_witness :
    2 ∈ writerOutstandingCounts ([0, 1] : List Nat) ∧ 2 ≤ 10 :=
  ⟨by decide, writer_outstanding_bounded ([0, 1] : List Nat) 2 (by decide)⟩

theorem progressValues_append {α : Type} :
    ∀ (l1 l2 : List (WriterEvent α)),
      progressValues (l1 ++ l2) = progressValues l1 ++ progressValues l2 := by
  intro l1 l2
  induction l1 with
  | nil => rfl
  | cons e rest ih => cases e <;> simp [progressValues, ih]

theorem range_map_div_succ (c N n : Nat) :
    (List.range (n + 1)).map (fun k => 100 * (c + k) / N) =
      100 * c / N :: (List.range n).map (fun k => 100 * (c + 1 + k) / N) := by
  rw [List.range_succ_eq_map]
  simp only [List.map_cons, List.map_map, Nat.add_zero]
  congr 1
  apply List.map_congr_left
  intro k _
  simp only [Function.comp_apply]
  have : c + Nat.succ k = c + 1 + k := by omega
  rw [this]

theorem progressValues_writerLoop {α : Type} (fuel : Nat) :
    ∀ (slicings active : List α) (counter numSlicings : Nat),
      slicings.length + active.length ≤ fuel →
      (slicings ≠ [] → active ≠ []) →
      progressValues (writerLoop fuel slicings active counter numSlicings) =
        (List.range (slicings.length + active.length)).map
          (fun k => 100 * (counter + k) / numSlicings) := by
  induction fuel with
  | zero =>
    intro s a c N hf hna
    have hs : s = [] := List.eq_nil_of_length_eq_zero (by omega)
    have ha : a = [] := List.eq_nil_of_length_eq_zero (by omega)
    subst hs; subst ha
    simp [writerLoop, progressValues]
  | succ fuel ih =>
    intro s a c N hf hna
    match a with
    | [] =>
      have hs : s = [] := by
        by_contra h
        exact hna h rfl
      subst hs
      simp [writerLoop, progressValues]
    | x :: rest =>
      rcases hs : s.getLast? with _ | y
      · have hnil : s = [] := by
          cases s with
          | nil => rfl
          | cons b bs => simp [List.getLast?_concat] at hs
        subst hnil
        simp only [writerLoop, hs, progressValues, List.dropLast_nil]
        rw [ih [] rest (c + 1) N (by simp at hf ⊢; omega) (by intro h; cases h rfl)]
        simp only [List.length_nil, Nat.zero_add, List.length_cons]
        rw [range_map_div_succ]
      · have hne : s ≠ [] := by rintro rfl; simp at hs
        have hpos : 0 < s.length := List.length_pos.mpr hne
        simp only [writerLoop, hs, progressValues]
        rw [ih s.dropLast (rest ++ [y]) (c + 1) N
          (by simp only [List.length_dropLast, List.length_append, List.length_cons,
                List.length_nil] at hf ⊢; omega)
          (fun _ => by simp)]
        rw [show s.dropLast.length + (rest ++ [y]).length = s.length + rest.length from by
          simp only [List.length_dropLast, List.length_append, List.length_cons,
            List.length_nil]
          omega]
        rw [show s.length + (x :: rest).length = (s.length + rest.length) + 1 from by
          simp only [List.length_cons]
          omega]
        rw [range_map_div_succ]

/-- C7 (amended): the writer signals 0 before any block, then after the k-th
block write (k = 1..N) it signals `100*(k−1)/N` (integer division) — the
`counter` is incremented only AFTER the signal, so the reported count excludes
the block just written — and finally it signals 100 unconditionally. -/
theorem writer_progress_sequence {α : Type} (slicings : List α) :
    progressValues (writerExecute slicings) =
      0 :: ((List.range slicings.length).map
        (fun k => 100 * k / slicings.length) ++ [100]) := by
  have hlen := popAppend_lengths (min 10 slicings.length) slicings []
  simp only [List.length_nil, Nat.zero_add] at hlen
  have hmin : min (min 10 slicings.length) slicings.length = min 10 slicings.length := by
    omega
  rw [hmin] at hlen
  have hsum : (writerInit slicings).1.length + (writerInit slicings).2.length =
      slicings.length := by
    simp only [writerInit]
    rw [hlen.1, hlen.2]
    omega
  have hcond : (writerInit slicings).1 ≠ [] → (writerInit slicings).2 ≠ [] := by
    intro h1
    have hp1 : 0 < (writerInit slicings).1.length := List.length_pos.mpr h1
    apply List.ne_nil_of_length_pos
    simp only [writerInit] at hp1 ⊢
    rw [hlen.1] at hp1
    rw [hlen.2]
    omega
  simp only [writerExecute, progressValues, progressValues_append]
  rw [progressValues_writerLoop ((writerInit slicings).1.length +
      (writerInit slicings).2.length) (writerInit slicings).1 (writerInit slicings).2
      0 slicings.length (le_refl _) hcond]
  rw [hsum]
  simp [progressValues]

/-- C7 counterexample: with a single block the writer signals `[0, 0, 100]`,
not the claimed `[0, 100, 100]` — after the only block write it reports
`100*0/1 = 0`, because the reported `completedBlocks` excludes the block just
written. -/
theorem writer_progress_off_by_one :
    progressValues (writerExecute ([0] : List Nat)) = [0, 0, 100] ∧
    claimedProgressValues 1 = [0, 100, 100] ∧
    progressValues (writerExecute ([0] : List Nat)) ≠ claimedProgressValues 1 := by
  decide

/-! ### Chunk shape lemmas (C8) -/

theorem natCbrtAux_cube_le (n : Nat) :
    ∀ (fuel k : Nat), k ^ 3 ≤ n → natCbrtAux n fuel k ^ 3 ≤ n := by
  intro fuel
  induction fuel with
  | zero => intro k h; exact h
  | succ fuel ih =>
    intro k h
    by_cases hk : (k + 1) ^ 3 ≤ n
    · simp only [natCbrtAux, if_pos hk]
      exact ih (k + 1) hk
    · simp only [natCbrtAux, if_neg hk]
      exact h

theorem natCbrtAux_lt_succ_cube (n : Nat) :
    ∀ (fuel k : Nat), n ≤ k + fuel → n < (natCbrtAux n fuel k + 1) ^ 3 := by
  intro fuel
  induction fuel with
  | zero =>
    intro k h
    have hk : k + 1 ≤ (k + 1) ^ 3 := Nat.le_self_pow (by norm_num) _
    simp only [natCbrtAux]
    omega
  | succ fuel ih =>
    intro k h
    by_cases hk : (k + 1) ^ 3 ≤ n
    · simp only [natCbrtAux, if_pos hk]
      exact ih (k + 1) (by omega)
    · simp only [natCbrtAux, if_neg hk]
      omega

theorem natCbrt_cube_le (n : Nat) : natCbrt n ^ 3 ≤ n :=
  natCbrtAux_cube_le n n 0 (by simp)

theorem lt_natCbrt_succ_cube (n : Nat) : n < (natCbrt n + 1) ^ 3 :=
  natCbrtAux_lt_succ_cube n n 0 (by omega)

/-- The integer cube root of the integer quotient `a / b` agrees with the
claim's real-number formula `floor((a / b)^(1/3))`. -/
theorem natCbrt_eq_floor_rpow (a b : Nat) (hb : 0 < b) :
    natCbrt (a / b) = Nat.floor (((a : ℝ) / (b : ℝ)) ^ ((1 : ℝ) / 3)) := by
  have hbR : (0 : ℝ) < (b : ℝ) := by exact_mod_cast hb
  have hq0 : (0 : ℝ) ≤ (a : ℝ) / (b : ℝ) := by positivity
  have h1 : ((natCbrt (a / b) : ℝ)) ^ (3 : ℕ) ≤ (a : ℝ) / (b : ℝ) := by
    calc ((natCbrt (a / b) : ℝ)) ^ (3 : ℕ) = ((natCbrt (a / b) ^ 3 : ℕ) : ℝ) := by
          push_cast; ring
    _ ≤ ((a / b : ℕ) : ℝ) := by exact_mod_cast natCbrt_cube_le (a / b)
    _ ≤ (a : ℝ) / (b : ℝ) := Nat.cast_div_le
  have h2 : (a : ℝ) / (b : ℝ) < ((natCbrt (a / b) : ℝ) + 1) ^ (3 : ℕ) := by
    have hmul : a < a / b * b + b := Nat.lt_div_mul_add hb
    have hqlt : (a : ℝ) / (b : ℝ) < ((a / b : ℕ) : ℝ) + 1 := by
      rw [div_lt_iff₀ hbR, add_mul, one_mul]
      exact_mod_cast hmul
    have hle : ((a / b : ℕ) : ℝ) + 1 ≤ (((natCbrt (a / b) + 1) ^ 3 : ℕ) : ℝ) := by
      exact_mod_cast lt_natCbrt_succ_cube (a / b)
    calc (a : ℝ) / (b : ℝ) < ((a / b : ℕ) : ℝ) + 1 := hqlt
    _ ≤ (((natCbrt (a / b) + 1) ^ 3 : ℕ) : ℝ) := hle
    _ = ((natCbrt (a / b) : ℝ) + 1) ^ (3 : ℕ) := by push_cast; ring
  have hcube : ∀ x : ℝ, 0 ≤ x → (x ^ (3 : ℕ) : ℝ) ^ ((1 : ℝ) / 3) = x := by
    intro x hx
    rw [← Real.rpow_natCast x 3, ← Real.rpow_mul hx]
    norm_num
  have hlow : (natCbrt (a / b) : ℝ) ≤ ((a : ℝ) / (b : ℝ)) ^ ((1 : ℝ) / 3) := by
    have := Real.rpow_le_rpow (by positivity) h1 (by norm_num : (0 : ℝ) ≤ 1 / 3)
    rwa [hcube _ (by positivity)] at this
  have hhigh : ((a : ℝ) / (b : ℝ)) ^ ((1 : ℝ) / 3) < (natCbrt (a / b) : ℝ) + 1 := by
    have := Real.rpow_lt_rpow hq0 h2 (by norm_num : (0 : ℝ) < 1 / 3)
    rwa [hcube _ (by positivity)] at this
  symm
  rw [Nat.floor_eq_iff (by positivity)]
  exact ⟨hlow, hhigh⟩

theorem nodup_filter_length_le {α : Type} [DecidableEq α] (l : List α) (h : l.Nodup)
    (p : α → Bool) (target : List α) (hsub : ∀ k, p k = true → k ∈ target) :
    (l.filter p).length ≤ target.toFinset.card := by
  have hnd : (l.filter p).Nodup := h.filter p
  rw [← List.toFinset_card_of_nodup hnd]
  apply Finset.card_le_card
  intro k hk
  rw [List.mem_toFinset] at hk ⊢
  exact hsub k (List.of_mem_filter hk)

theorem prod_chunkDim_eq (cd nC : Nat) :
    ∀ keys : List AxisKey,
      (keys.map (chunkDim cd nC)).prod =
        cd ^ (keys.filter (fun k => isSpatial k)).length *
          nC ^ (keys.filter (fun k => k == AxisKey.c)).length := by
  intro keys
  induction keys with
  | nil => simp
  | cons k rest ih =>
    cases k <;>
      simp only [List.map_cons, List.prod_cons, chunkDim, isSpatial, List.filter_cons,
        ih, List.length_cons, pow_succ] <;>
      simp <;> ring

theorem prod_map_min_le {α : Type} (f g : α → Nat) :
    ∀ l : List α, (l.map (fun a => min (f a) (g a))).prod ≤ (l.map f).prod := by
  intro l
  induction l with
  | nil => exact le_refl _
  | cons a rest ih =>
    simp only [List.map_cons, List.prod_cons]
    exact Nat.mul_le_mul (Nat.min_le_left _ _) ih

theorem find?_isC_of_nodup (axes : List (AxisKey × Nat))
    (h : (axes.map Prod.fst).Nodup) :
    ∀ (i : Nat) (hi : i < axes.length), (axes.get ⟨i, hi⟩).1 = AxisKey.c →
      axes.find? (fun a => a.1 == AxisKey.c) = some (axes.get ⟨i, hi⟩) := by
  induction axes with
  | nil => intro i hi; simp at hi
  | cons a rest ih =>
    intro i hi hc
    match i with
    | 0 =>
      simp only [List.get] at hc
      simp [List.find?, hc]
    | i + 1 =>
      simp only [List.get] at hc
      have hi' : i < rest.length := by simpa using hi
      have hmem : AxisKey.c ∈ rest.map Prod.fst := by
        rw [← hc]
        exact List.mem_map_of_mem Prod.fst (rest.get_mem i hi')
      have hane : (a.1 == AxisKey.c) = false := by
        simp only [List.map_cons, List.nodup_cons] at h
        rw [beq_eq_false_iff_ne]
        intro heq
        exact h.1 (heq ▸ hmem)
      simp only [List.find?, hane]
      exact ih (by simp only [List.map_cons, List.nodup_cons] at h; exact h.2) i hi' hc

theorem chunkDim_of_isSpatial (cd nC : Nat) (k : AxisKey) (h : isSpatial k = true) :
    chunkDim cd nC k = cd := by
  cases k <;> simp [isSpatial] at h ⊢ <;> rfl

/-- C8 (amended): the chunk shape chosen by `OpH5WriterBigDataset.setupOutputs`
satisfies `chunkShape[i] ≤ dataShape[i]` on every axis, equals
`min(floor((300000 / (channelCount * elementSize))^(1/3)), dataShape[i])` on
every spatial axis (real-number cube root, as the claim states it), is at
most 1 on the Time axis and exactly the full channel count on the Channel
axis; and — provided the array has at least one spatial axis — the product of
the chunk dimensions times the element size is at most 300000. -/
theorem chunk_shape_spec (axes : List (AxisKey × Nat)) (dtypeBytes : Nat)
    (hnd : (axes.map Prod.fst).Nodup) (hB : 0 < dtypeBytes)
    (hC : 0 < writerNumChannels axes) :
    (∀ i (hi : i < axes.length),
      (writerChunkShape axes dtypeBytes).getD i 0 ≤ (axes.get ⟨i, hi⟩).2) ∧
    (∀ i (hi : i < axes.length), isSpatial (axes.get ⟨i, hi⟩).1 = true →
      (writerChunkShape axes dtypeBytes).getD i 0 =
        min (Nat.floor (((300000 : ℝ) /
            ((writerNumChannels axes * dtypeBytes : ℕ) : ℝ)) ^ ((1 : ℝ) / 3)))
          (axes.get ⟨i, hi⟩).2) ∧
    (∀ i (hi : i < axes.length), (axes.get ⟨i, hi⟩).1 = AxisKey.t →
      (writerChunkShape axes dtypeBytes).getD i 0 ≤ 1) ∧
    (∀ i (hi : i < axes.length), (axes.get ⟨i, hi⟩).1 = AxisKey.c →
      (writerChunkShape axes dtypeBytes).getD i 0 = writerNumChannels axes) ∧
    ((∃ a ∈ axes, isSpatial a.1 = true) →
      (writerChunkShape axes dtypeBytes).prod * dtypeBytes ≤ 300000) := by
  have hlen : (writerChunkShape axes dtypeBytes).length = axes.length := by
    simp [writerChunkShape]
  have hgetD : ∀ i (hi : i < axes.length),
      (writerChunkShape axes dtypeBytes).getD i 0 =
        min (chunkDim (writerCubeDim (writerNumChannels axes) dtypeBytes)
          (writerNumChannels axes) (axes.get ⟨i, hi⟩).1) (axes.get ⟨i, hi⟩).2 := by
    intro i hi
    rw [List.getD_eq_getElem _ _ (by omega)]
    simp [writerChunkShape]
  have hCE : 0 < writerNumChannels axes * dtypeBytes := Nat.mul_pos hC hB
  refine ⟨?_, ?_, ?_, ?_, ?_⟩
  · intro i hi
    rw [hgetD i hi]
    exact Nat.min_le_right _ _
  · intro i hi hsp
    rw [hgetD i hi, chunkDim_of_isSpatial _ _ _ hsp, writerCubeDim,
      natCbrt_eq_floor_rpow 300000 (writerNumChannels axes * dtypeBytes) hCE]
    norm_num
  · intro i hi ht
    rw [hgetD i hi, ht]
    exact le_trans (Nat.min_le_left _ _) (le_refl 1)
  · intro i hi hc
    rw [hgetD i hi, hc]
    have hfind := find?_isC_of_nodup axes hnd i hi hc
    have : writerNumChannels axes = (axes.get ⟨i, hi⟩).2 := by
      simp [writerNumChannels, hfind]
    simp only [chunkDim]
    omega
  · rintro ⟨a, ha, hsp⟩
    rcases Nat.eq_zero_or_pos (writerCubeDim (writerNumChannels axes) dtypeBytes)
      with hcd | hcd
    · have hzero : (0 : Nat) ∈ writerChunkShape axes dtypeBytes := by
        simp only [writerChunkShape, List.mem_map]
        refine ⟨a, ha, ?_⟩
        rw [chunkDim_of_isSpatial _ _ _ hsp, hcd]
        simp
      rw [List.prod_eq_zero hzero]
      omega
    · have hstep1 : (writerChunkShape axes dtypeBytes).prod ≤
          ((axes.map Prod.fst).map (chunkDim (writerCubeDim (writerNumChannels axes)
            dtypeBytes) (writerNumChannels axes))).prod := by
        rw [List.map_map]
        exact prod_map_min_le (fun a => chunkDim _ _ a.1) (fun a => a.2) axes
      rw [prod_chunkDim_eq] at hstep1
      have hsLe : ((axes.map Prod.fst).filter (fun k => isSpatial k)).length ≤ 3 := by
        have := nodup_filter_length_le (axes.map Prod.fst) hnd
          (fun k => isSpatial k) [AxisKey.x, AxisKey.y, AxisKey.z]
          (by intro k hk; cases k <;> simp [isSpatial] at hk ⊢)
        simpa using this
      have hcLe : ((axes.map Prod.fst).filter (fun k => k == AxisKey.c)).length ≤ 1 := by
        have := nodup_filter_length_le (axes.map Prod.fst) hnd
          (fun k => k == AxisKey.c) [AxisKey.c]
          (by intro k hk; cases k <;> simp at hk ⊢)
        simpa using this
      have hpow : writerCubeDim (writerNumChannels axes) dtypeBytes ^
            ((axes.map Prod.fst).filter (fun k => isSpatial k)).length *
            writerNumChannels axes ^
            ((axes.map Prod.fst).filter (fun k => k == AxisKey.c)).length ≤
          writerCubeDim (writerNumChannels axes) dtypeBytes ^ 3 *
            writerNumChannels axes := by
        apply Nat.mul_le_mul
        · exact Nat.pow_le_pow_right hcd hsLe
        · calc writerNumChannels axes ^
              ((axes.map Prod.fst).filter (fun k => k == AxisKey.c)).length ≤
                writerNumChannels axes ^ 1 := Nat.pow_le_pow_right hC hcLe
          _ = writerNumChannels axes := pow_one _
      have hbudget : writerCubeDim (writerNumChannels axes) dtypeBytes ^ 3 *
          (writerNumChannels axes * dtypeBytes) ≤ 300000 := by
        calc writerCubeDim (writerNumChannels axes) dtypeBytes ^ 3 *
            (writerNumChannels axes * dtypeBytes) ≤
              (300000 / (writerNumChannels axes * dtypeBytes)) *
                (writerNumChannels axes * dtypeBytes) :=
            Nat.mul_le_mul_right _ (natCbrt_cube_le _)
        _ ≤ 300000 := Nat.div_mul_le_self _ _
      calc (writerChunkShape axes dtypeBytes).prod * dtypeBytes ≤
          (writerCubeDim (writerNumChannels axes) dtypeBytes ^ 3 *
            writerNumChannels axes) * dtypeBytes :=
          Nat.mul_le_mul_right _ (le_trans hstep1 hpow)
      _ = writerCubeDim (writerNumChannels axes) dtypeBytes ^ 3 *
            (writerNumChannels axes * dtypeBytes) := by ring
      _ ≤ 300000 := hbudget

/-- C8 witness: a 100×100 two-channel-free spatial array with 3 channels and
4-byte elements; the budget bound holds with the concrete chunk shape. -/
theorem chunk_shape_spec_witness :
    (writerChunkShape [(AxisKey.x, 100), (AxisKey.y, 100), (AxisKey.c, 3)] 4).prod *
      4 ≤ 300000 :=
  (chunk_shape_spec [(AxisKey.x, 100), (AxisKey.y, 100), (AxisKey.c, 3)] 4
    (by decide) (by decide) (by decide)).2.2.2.2
    ⟨(AxisKey.x, 100), by decide, by decide⟩

/-- C8 counterexample: an array with only a channel axis (40000 channels,
8-byte elements) gets chunk shape `[40000]`, whose byte size 320000 exceeds
the 300000 budget — `cubeDim` clips nothing when no spatial axis exists. -/
theorem chunk_budget_violated_without_spatial_axis :
    writerChunkShape [(AxisKey.c, 40000)] 8 = [40000] ∧
    (writerChunkShape [(AxisKey.c, 40000)] 8).prod * 8 = 320000 ∧
    ¬ (writerChunkShape [(AxisKey.c, 40000)] 8).prod * 8 ≤ 300000 := by
  decide

end Lazyflow
